import Mathlib

/-!
Verification development for the matrix-rooms-bot repository.

The development shallowly embeds the room-monitor subsystem (the
`RoomMonitor` class: hierarchy traversal, diffing, persistence, polling
scheduler).  Remote HTTP calls are modelled as a function from a space id
and an optional continuation token to an optional response (`none` models
a request that throws); fallible state loading is modelled by an explicit
`StoredState` datatype; the repeating timer is modelled as a step relation
on a scheduler state.  Recursive traversal is expressed with an explicit
fuel argument (fuel bounds the depth of nested calls and loop iterations);
running out of fuel is a distinguished outcome that is proved unreachable
for finite space graphs.
-/

namespace MatrixRoomsBot

/-- One entry of a hierarchy listing as returned by the remote server
(`response.rooms` elements).  Fields mirror the JSON fields the code
consumes: `room_id`, `room_type`, `name`, `canonical_alias`, `topic`,
`num_joined_members`.  `none` models an absent / null JSON field. -/
structure Entry where
  room_id : String
  room_type : Option String
  name : Option String
  canonical_alias : Option String
  topic : Option String
  num_joined_members : Option Nat
deriving DecidableEq

/-- One page of the hierarchy listing: `{ rooms, next_batch }`. -/
structure HierarchyResponse where
  rooms : List Entry
  next_batch : Option String
deriving DecidableEq

/-- The remote query capability: given a space id and the optional
continuation token carried in the request, either a response or `none`
(the request throws: network error, permission error, unknown room). -/
def Server : Type := String → Option String → Option HierarchyResponse

/-- JavaScript `s || null` on an optional string: an absent value and the
empty string are both falsy and collapse to null. -/
def jsStr : Option String → Option String
  | none => none
  | some s => if s = "" then none else some s

/-- JavaScript truthiness of the `next_batch` token used by
`while (nextBatch)` and `if (nextBatch)`: absent and empty are falsy. -/
def tokTruthy : Option String → Bool
  | none => false
  | some s => decide (s ≠ "")

/-- The metadata record the traversal builds for each listing entry
(`const metadata = { room_id, name: room.name || null, canonicalAlias:
room.canonical_alias || null, topic: room.topic || '', memberCount:
room.num_joined_members || 0 }`). -/
structure Metadata where
  room_id : String
  name : Option String
  canonicalAlias : Option String
  topic : String
  memberCount : Nat
deriving DecidableEq

/-- Build the metadata record from a listing entry, following the
JavaScript defaulting (`|| null`, `|| ''`, `|| 0`). -/
def toMetadata (e : Entry) : Metadata :=
  { room_id := e.room_id
    name := jsStr e.name
    canonicalAlias := jsStr e.canonical_alias
    topic := e.topic.getD ""
    memberCount := e.num_joined_members.getD 0 }

/-- The mutable state threaded through one `fetchRoomsInSpace` call:
the `visitedSpaces` set, the `allRooms` accumulator, plus two
instrumentation logs that record observable remote interaction:
`expandLog` lists, in order, the spaces whose child listing the traversal
started to request (one entry per space expansion), and `reqLog` lists
every individual page request with the continuation token it carried. -/
structure FetchSt where
  visited : List String
  allRooms : List Metadata
  expandLog : List String
  reqLog : List (String × Option String)
deriving DecidableEq

/-- Outcome of a traversal fragment: normal completion, an exception
propagating (`err`, carrying the state at throw time, since `allRooms`
is a closure variable that survives the throw), or fuel exhaustion
(no counterpart in the source; proved unreachable on finite graphs). -/
inductive FetchRes where
  | ok (st : FetchSt)
  | err (st : FetchSt)
  | fuelOut (st : FetchSt)
deriving DecidableEq

/-- The state carried by a traversal outcome. -/
def FetchRes.toSt : FetchRes → FetchSt
  | .ok st => st
  | .err st => st
  | .fuelOut st => st

/-- Whether an outcome is fuel exhaustion. -/
def FetchRes.isOut : FetchRes → Bool
  | .fuelOut _ => true
  | _ => false

mutual

/-- `recurseHierarchy(spaceId)` from `fetchRoomsInSpace` (index.js):
skip if the space was already visited, otherwise mark it visited and run
the paginated request loop for it. -/
def goSpace (σ : Server) (fuel : Nat) (st : FetchSt) (spaceId : String) :
    FetchRes :=
  match fuel with
  | 0 => .fuelOut st
  | f + 1 =>
    if spaceId ∈ st.visited then .ok st
    else
      pageLoop σ f
        { st with
          visited := spaceId :: st.visited
          expandLog := st.expandLog ++ [spaceId] } spaceId none

/-- The `do { ... } while (nextBatch)` pagination loop of
`recurseHierarchy`: issue the page request (recorded in `reqLog` with the
token it carries); a failing request throws (`err`); otherwise process the
page's entries and continue with the returned `next_batch` while truthy. -/
def pageLoop (σ : Server) (fuel : Nat) (st : FetchSt) (spaceId : String)
    (tok : Option String) : FetchRes :=
  match fuel with
  | 0 => .fuelOut st
  | f + 1 =>
    let st1 := { st with reqLog := st.reqLog ++ [(spaceId, tok)] }
    match σ spaceId tok with
    | none => .err st1
    | some resp =>
      match processEntries σ f st1 resp.rooms with
      | .ok st2 =>
        if tokTruthy resp.next_batch then
          pageLoop σ f st2 spaceId resp.next_batch
        else .ok st2
      | r => r

/-- The `for (const room of rooms)` body of `recurseHierarchy`: a child
with `room_type === 'm.space'` is recursed into; any other child has its
metadata appended to `allRooms`.  An exception thrown inside the recursion
propagates and abandons the remaining entries. -/
def processEntries (σ : Server) (fuel : Nat) (st : FetchSt)
    (es : List Entry) : FetchRes :=
  match fuel with
  | 0 => .fuelOut st
  | f + 1 =>
    match es with
    | [] => .ok st
    | e :: rest =>
      if e.room_type = some "m.space" then
        match goSpace σ f st e.room_id with
        | .ok st1 => processEntries σ f st1 rest
        | r => r
      else
        processEntries σ f
          { st with allRooms := st.allRooms ++ [toMetadata e] } rest

end

/-- The fresh traversal state of one `fetchRoomsInSpace(spaceId)` call
(`visitedSpaces = new Set()`, `allRooms = []`). -/
def fetchInit : FetchSt :=
  { visited := [], allRooms := [], expandLog := [], reqLog := [] }

/-- `fetchRoomsInSpace(spaceId)`: run the recursion inside a top-level
try/catch and return `allRooms` whether or not an exception was caught
(the catch only logs). -/
def fetchRoomsInSpace (σ : Server) (fuel : Nat) (spaceId : String) :
    List Metadata :=
  (goSpace σ fuel fetchInit spaceId).toSt.allRooms

/-! ### A finite space-graph server

Space graphs are described by a finite association list from a space id to
that space's pages of child entries; a space id absent from the list (or
mapped to no pages) models a space whose hierarchy request fails.
Continuation tokens are non-empty strings whose length encodes the index
of the page they point to. -/

/-- Environment: each monitored space id with its pages of child entries. -/
abbrev Env : Type := List (String × List (List Entry))

/-- The continuation token pointing at page `n` (a string of length `n`). -/
def tokOfNat (n : Nat) : String := String.mk (List.replicate n 'a')

/-- Decode a continuation token back to a page index; requests with no
token ask for the first page. -/
def decodeTok : Option String → Nat
  | none => 0
  | some s => s.length

/-- The server induced by a finite space graph: the page request for a
known space returns the indexed page together with a token for the next
page when one exists; requests for unknown spaces or past the final page
fail. -/
def serve (env : Env) : Server := fun spaceId tok =>
  match List.lookup spaceId env with
  | none => none
  | some pgs =>
    let i := decodeTok tok
    if h : i < pgs.length then
      some { rooms := pgs.get ⟨i, h⟩
             next_batch :=
               if i + 1 < pgs.length then some (tokOfNat (i + 1)) else none }
    else none

/-! ### The monitor cycle (`checkForNewRooms`), persistence and startup -/

/-- Construct a JavaScript `Set` from a list: membership-deduplicated,
keeping the first occurrence of each element, in insertion order. -/
def jsSetOfList (l : List String) : List String :=
  l.foldl (fun acc x => if x ∈ acc then acc else acc ++ [x]) []

/-- The monitor's in-memory state: `this.lastCheckedRooms` (a `Set`)
and `this.roomNames` (an object used as a map). -/
structure MonitorState where
  lastCheckedRooms : List String
  roomNames : List (String × String)
deriving DecidableEq

/-- The constructor state: empty known-room set, empty name map. -/
def MonitorState.init : MonitorState :=
  { lastCheckedRooms := [], roomNames := [] }

/-- `const currentRoomIds = new Set(rooms.map(room => room.room_id))`. -/
def currentRoomIdsOf (rooms : List Metadata) : List String :=
  jsSetOfList (rooms.map fun r => r.room_id)

/-- `const newRooms = rooms.filter(room =>
!this.lastCheckedRooms.has(room.room_id))`. -/
def newRoomsOf (rooms : List Metadata) (last : List String) : List Metadata :=
  rooms.filter fun r => decide (r.room_id ∉ last)

/-- JavaScript object property assignment `obj[k] = v`: replace the value
of an existing key in place, otherwise append the binding. -/
def objSet (m : List (String × String)) (k v : String) :
    List (String × String) :=
  if (List.lookup k m).isSome then
    m.map fun p => if p.1 = k then (k, v) else p
  else m ++ [(k, v)]

/-- The `for (const room of newRooms)` loop recording
`this.roomNames[room.room_id] = room.name` when the name is truthy and
differs from the room id. -/
def updateNames (names : List (String × String)) (newRooms : List Metadata) :
    List (String × String) :=
  newRooms.foldl
    (fun acc r =>
      match r.name with
      | some n => if n ≠ r.room_id then objSet acc r.room_id n else acc
      | none => acc)
    names

/-- The snapshot content written by `saveState` (the `lastUpdated`
timestamp and `observedSpace` echo are not modelled). -/
structure StateFile where
  rooms : List String
  roomNames : List (String × String)
deriving DecidableEq

/-- Everything one `checkForNewRooms` cycle produces: the updated
in-memory state, the room ids notified in order (one element per
`sendEnhancedRoomNotification` call), the snapshot written by `saveState`,
and the returned `checked` / `new` counts. -/
structure CycleOutput where
  state : MonitorState
  notified : List String
  saved : StateFile
  checked : Nat
  newCount : Nat
deriving DecidableEq

/-- The body of `checkForNewRooms(shouldAlert)` (index.js lines 152-176):
fetch the current rooms, compute `currentRoomIds` and `newRooms`, record
names of new rooms, send one notification per element of `newRooms` when
`shouldAlert && newRooms.length > 0`, replace `lastCheckedRooms` with
`currentRoomIds` and persist the snapshot. -/
def runCycle (σ : Server) (fuel : Nat) (observedSpace : String)
    (st : MonitorState) (shouldAlert : Bool) : CycleOutput :=
  let rooms := fetchRoomsInSpace σ fuel observedSpace
  let currentRoomIds := currentRoomIdsOf rooms
  let newRooms := newRoomsOf rooms st.lastCheckedRooms
  let names1 := updateNames st.roomNames newRooms
  let notified :=
    if shouldAlert && decide (0 < newRooms.length) then
      newRooms.map fun r => r.room_id
    else []
  let st1 : MonitorState :=
    { lastCheckedRooms := currentRoomIds, roomNames := names1 }
  { state := st1
    notified := notified
    saved := { rooms := st1.lastCheckedRooms, roomNames := st1.roomNames }
    checked := currentRoomIds.length
    newCount := newRooms.length }

/-- What `loadState` finds on disk: no file, a file whose contents fail
to parse, or a parsed object whose `rooms` / `roomNames` fields may be
absent. -/
inductive StoredState where
  | missing
  | corrupt
  | valid (rooms : Option (List String))
      (roomNames : Option (List (String × String)))
deriving DecidableEq

/-- `loadState()`: a missing file returns `false` leaving the state
untouched; a parse failure is caught, logged and returns `false` leaving
the state untouched; a parsed file replaces `lastCheckedRooms` with
`new Set(state.rooms || [])` and `roomNames` with `state.roomNames || {}`
and returns `true`. -/
def loadState (stored : StoredState) (st : MonitorState) :
    MonitorState × Bool :=
  match stored with
  | .missing => (st, false)
  | .corrupt => (st, false)
  | .valid rooms names =>
    ({ lastCheckedRooms := jsSetOfList (rooms.getD [])
       roomNames := names.getD [] }, true)

/-- JavaScript truthiness of an optional configuration string. -/
def truthyOpt : Option String → Bool
  | none => false
  | some s => decide (s ≠ "")

/-- `checkForNewRooms` including its configuration guard (lines 146-149):
when either the observed space or the notification room is falsy the
check returns early having done nothing. -/
def checkForNewRooms (σ : Server) (fuel : Nat)
    (observedSpace notificationRoom : Option String) (st : MonitorState)
    (shouldAlert : Bool) : Option CycleOutput :=
  if truthyOpt observedSpace && truthyOpt notificationRoom then
    some (runCycle σ fuel (observedSpace.getD "") st shouldAlert)
  else none

/-- The startup sequence of `startMonitoring` (lines 227-228): load the
persisted snapshot into a fresh monitor and run the first cycle with
`shouldAlert = hasExistingState`. -/
def startFirstCycle (σ : Server) (fuel : Nat) (observedSpace : String)
    (stored : StoredState) : CycleOutput :=
  let p := loadState stored MonitorState.init
  runCycle σ fuel observedSpace p.1 p.2

/-! ### The polling scheduler

`startMonitoring` installs `setInterval(async () => { if (this.isRunning)
{ await this.checkForNewRooms(true) } }, interval)`.  Because a cycle
suspends at its awaited network calls, the event loop can run a later
timer callback while an earlier cycle is still in flight; the callback's
only guard is the `isRunning` flag.  The scheduler is therefore modelled
as a state machine over the events that can be observed at suspension
points: a timer firing, a cycle finishing, and `stopMonitoring`. -/

/-- Scheduler state: the `isRunning` flag together with the number of
`checkForNewRooms` executions currently in flight. -/
structure SchedState where
  isRunning : Bool
  inFlightCycles : Nat
deriving DecidableEq

/-- Events driving the scheduler. -/
inductive SchedEvent where
  | timerFire
  | cycleEnd
  | stopCall
deriving DecidableEq

/-- One scheduler transition: a timer firing starts a new cycle whenever
`isRunning` holds (the only condition the interval callback checks); a
cycle finishing decrements the in-flight count; `stopMonitoring` clears
the flag (an in-flight cycle is allowed to finish). -/
def schedStep (st : SchedState) : SchedEvent → SchedState
  | .timerFire =>
    if st.isRunning then
      { st with inFlightCycles := st.inFlightCycles + 1 }
    else st
  | .cycleEnd => { st with inFlightCycles := st.inFlightCycles - 1 }
  | .stopCall => { st with isRunning := false }

/-- Run the scheduler over a sequence of observed events. -/
def schedExec (st : SchedState) (evs : List SchedEvent) : SchedState :=
  evs.foldl schedStep st

/-- The scheduler state right after `startMonitoring` finished its first
cycle: running, nothing in flight. -/
def schedRunning : SchedState := { isRunning := true, inFlightCycles := 0 }

/-! ### Concrete test fixtures -/

/-- A leaf-room listing entry carrying only its id. -/
def leafEntry (id : String) : Entry :=
  { room_id := id, room_type := none, name := none, canonical_alias := none
    topic := none, num_joined_members := none }

/-- A sub-space listing entry. -/
def spaceEntry (id : String) : Entry :=
  { room_id := id, room_type := some "m.space", name := none
    canonical_alias := none, topic := none, num_joined_members := none }

/-- A single space holding three leaf rooms on one page. -/
def envBaseline : Env :=
  [("!space", [[leafEntry "!r1", leafEntry "!r2", leafEntry "!r3"]])]

/-- A root with two sub-spaces that both list the same leaf room. -/
def envDupRoom : Env :=
  [("!root", [[spaceEntry "!a", spaceEntry "!b"]]),
   ("!a", [[leafEntry "!r"]]),
   ("!b", [[leafEntry "!r"]])]

/-- A root whose first sub-space `!x` fails to expand (absent from the
environment) while its sibling `!y` holds two leaf rooms. -/
def envBranchFail : Env :=
  [("!root", [[spaceEntry "!x", spaceEntry "!y"]]),
   ("!y", [[leafEntry "!r5", leafEntry "!r6"]])]

/-- A two-space reference cycle: `!a` lists `!b`, `!b` lists `!a` and one
leaf room. -/
def envCycle : Env :=
  [("!a", [[spaceEntry "!b"]]),
   ("!b", [[spaceEntry "!a", leafEntry "!r1"]])]

/-- The empty environment: every hierarchy request fails, so the root is
unreachable. -/
def envNone : Env := []

/-! ### Helper lemmas about the JavaScript-set model and the cycle -/

theorem mem_jsSet_foldl (t : List String) :
    ∀ (acc : List String) (x : String),
      (x ∈ t.foldl (fun acc x => if x ∈ acc then acc else acc ++ [x]) acc)
        ↔ x ∈ acc ∨ x ∈ t := by
  induction t with
  | nil => intro acc x; simp
  | cons a t ih =>
    intro acc x
    simp only [List.foldl_cons]
    by_cases h : a ∈ acc
    · rw [if_pos h, ih]
      simp only [List.mem_cons]
      constructor
      · rintro (hx | hx)
        · exact Or.inl hx
        · exact Or.inr (Or.inr hx)
      · rintro (hx | rfl | hx)
        · exact Or.inl hx
        · exact Or.inl h
        · exact Or.inr hx
    · rw [if_neg h, ih]
      simp only [List.mem_append, List.mem_cons, List.not_mem_nil, or_false]
      tauto

theorem mem_jsSetOfList {x : String} {l : List String} :
    x ∈ jsSetOfList l ↔ x ∈ l := by
  simpa [jsSetOfList] using mem_jsSet_foldl l [] x

theorem runCycle_state_last (σ : Server) (fuel : Nat) (sp : String)
    (st : MonitorState) (b : Bool) :
    (runCycle σ fuel sp st b).state.lastCheckedRooms =
      currentRoomIdsOf (fetchRoomsInSpace σ fuel sp) := rfl

theorem runCycle_saved_rooms (σ : Server) (fuel : Nat) (sp : String)
    (st : MonitorState) (b : Bool) :
    (runCycle σ fuel sp st b).saved.rooms =
      currentRoomIdsOf (fetchRoomsInSpace σ fuel sp) := rfl

theorem runCycle_newCount (σ : Server) (fuel : Nat) (sp : String)
    (st : MonitorState) (b : Bool) :
    (runCycle σ fuel sp st b).newCount =
      (newRoomsOf (fetchRoomsInSpace σ fuel sp) st.lastCheckedRooms).length :=
  rfl

theorem runCycle_notified (σ : Server) (fuel : Nat) (sp : String)
    (st : MonitorState) (b : Bool) :
    (runCycle σ fuel sp st b).notified =
      if b && decide (0 <
          (newRoomsOf (fetchRoomsInSpace σ fuel sp)
            st.lastCheckedRooms).length) then
        (newRoomsOf (fetchRoomsInSpace σ fuel sp) st.lastCheckedRooms).map
          fun r => r.room_id
      else [] := rfl

theorem runCycle_noAlert (σ : Server) (fuel : Nat) (sp : String)
    (st : MonitorState) :
    (runCycle σ fuel sp st false).notified = [] := by
  rw [runCycle_notified]
  simp

theorem mem_currentRoomIds (σ : Server) (fuel : Nat) (sp : String) :
    ∀ r ∈ fetchRoomsInSpace σ fuel sp,
      r.room_id ∈ currentRoomIdsOf (fetchRoomsInSpace σ fuel sp) := by
  intro r hr
  exact mem_jsSetOfList.mpr (List.mem_map_of_mem _ hr)

theorem newRoomsOf_self_nil (σ : Server) (fuel : Nat) (sp : String) :
    newRoomsOf (fetchRoomsInSpace σ fuel sp)
      (currentRoomIdsOf (fetchRoomsInSpace σ fuel sp)) = [] := by
  unfold newRoomsOf
  rw [List.filter_eq_nil_iff]
  intro r hr
  simp [mem_currentRoomIds σ fuel sp r hr]

/-! ### Traversal invariants: the visited set only grows, and the
expansion log stays duplicate-free and inside the visited set -/

/-- The invariant tying the expansion log to the visited set: no space is
logged as expanded twice, and every logged space is in the visited set. -/
def FetchInv (st : FetchSt) : Prop :=
  st.expandLog.Nodup ∧ ∀ a ∈ st.expandLog, a ∈ st.visited

/-- State evolution along a traversal fragment: the visited set only
grows and `FetchInv` is preserved. -/
def Evolves (st st' : FetchSt) : Prop :=
  (∀ a ∈ st.visited, a ∈ st'.visited) ∧ (FetchInv st → FetchInv st')

theorem evolves_refl (st : FetchSt) : Evolves st st :=
  ⟨fun _ h => h, fun h => h⟩

theorem evolves_trans {s1 s2 s3 : FetchSt} (h12 : Evolves s1 s2)
    (h23 : Evolves s2 s3) : Evolves s1 s3 :=
  ⟨fun a h => h23.1 a (h12.1 a h), fun h => h23.2 (h12.2 h)⟩

theorem nodup_append_single {l : List String} {s : String}
    (h : l.Nodup) (hs : s ∉ l) : (l ++ [s]).Nodup := by
  simp [List.nodup_append, h, hs]

theorem evolves_all (σ : Server) (fuel : Nat) :
    (∀ st s, Evolves st (goSpace σ fuel st s).toSt)
    ∧ (∀ st s tok, Evolves st (pageLoop σ fuel st s tok).toSt)
    ∧ (∀ st es, Evolves st (processEntries σ fuel st es).toSt) := by
  induction fuel with
  | zero =>
    exact ⟨fun st s => evolves_refl st, fun st s tok => evolves_refl st,
      fun st es => evolves_refl st⟩
  | succ f ih =>
    obtain ⟨ihG, ihP, ihE⟩ := ih
    refine ⟨?_, ?_, ?_⟩
    · intro st s
      by_cases h : s ∈ st.visited
      · have heq : goSpace σ (f + 1) st s = .ok st := by
          simp [goSpace, h]
        rw [heq]
        exact evolves_refl st
      · have heq : goSpace σ (f + 1) st s =
            pageLoop σ f
              { st with visited := s :: st.visited
                        expandLog := st.expandLog ++ [s] } s none := by
          simp [goSpace, h]
        rw [heq]
        refine evolves_trans ?_ (ihP _ s none)
        refine ⟨fun a ha => List.mem_cons_of_mem _ ha, ?_⟩
        rintro ⟨hnd, hsub⟩
        have hnotin : s ∉ st.expandLog := fun hx => h (hsub s hx)
        refine ⟨nodup_append_single hnd hnotin, ?_⟩
        intro a ha
        rcases List.mem_append.mp ha with h1 | h2
        · exact List.mem_cons_of_mem _ (hsub a h1)
        · rcases List.mem_singleton.mp h2 with rfl
          exact List.mem_cons_self _ _
    · intro st s tok
      cases hσ : σ s tok with
      | none =>
        have heq : pageLoop σ (f + 1) st s tok =
            .err { st with reqLog := st.reqLog ++ [(s, tok)] } := by
          simp [pageLoop, hσ]
        rw [heq]
        exact ⟨fun a ha => ha, fun hi => hi⟩
      | some resp =>
        have base :
            Evolves st { st with reqLog := st.reqLog ++ [(s, tok)] } :=
          ⟨fun a ha => ha, fun hi => hi⟩
        have hE := ihE { st with reqLog := st.reqLog ++ [(s, tok)] }
          resp.rooms
        cases hEr : processEntries σ f
            { st with reqLog := st.reqLog ++ [(s, tok)] } resp.rooms with
        | ok st2 =>
          rw [hEr] at hE
          have e1 : Evolves st st2 := evolves_trans base hE
          by_cases ht : tokTruthy resp.next_batch = true
          · have heq : pageLoop σ (f + 1) st s tok =
                pageLoop σ f st2 s resp.next_batch := by
              simp [pageLoop, hσ, hEr, ht]
            rw [heq]
            exact evolves_trans e1 (ihP st2 s resp.next_batch)
          · have heq : pageLoop σ (f + 1) st s tok = .ok st2 := by
              simp [pageLoop, hσ, hEr, ht]
            rw [heq]
            exact e1
        | err st2 =>
          rw [hEr] at hE
          have heq : pageLoop σ (f + 1) st s tok = .err st2 := by
            simp [pageLoop, hσ, hEr]
          rw [heq]
          exact evolves_trans base hE
        | fuelOut st2 =>
          rw [hEr] at hE
          have heq : pageLoop σ (f + 1) st s tok = .fuelOut st2 := by
            simp [pageLoop, hσ, hEr]
          rw [heq]
          exact evolves_trans base hE
    · intro st es
      cases es with
      | nil =>
        have heq : processEntries σ (f + 1) st [] = .ok st := by
          simp [processEntries]
        rw [heq]
        exact evolves_refl st
      | cons e rest =>
        by_cases hsp : e.room_type = some "m.space"
        · have hG := ihG st e.room_id
          cases hGr : goSpace σ f st e.room_id with
          | ok st1 =>
            rw [hGr] at hG
            have heq : processEntries σ (f + 1) st (e :: rest) =
                processEntries σ f st1 rest := by
              simp [processEntries, hsp, hGr]
            rw [heq]
            exact evolves_trans hG (ihE st1 rest)
          | err st1 =>
            rw [hGr] at hG
            have heq : processEntries σ (f + 1) st (e :: rest) =
                .err st1 := by
              simp [processEntries, hsp, hGr]
            rw [heq]
            exact hG
          | fuelOut st1 =>
            rw [hGr] at hG
            have heq : processEntries σ (f + 1) st (e :: rest) =
                .fuelOut st1 := by
              simp [processEntries, hsp, hGr]
            rw [heq]
            exact hG
        · have heq : processEntries σ (f + 1) st (e :: rest) =
              processEntries σ f
                { st with allRooms := st.allRooms ++ [toMetadata e] }
                rest := by
            simp [processEntries, hsp]
          rw [heq]
          exact evolves_trans ⟨fun a ha => ha, fun hi => hi⟩
            (ihE { st with allRooms := st.allRooms ++ [toMetadata e] } rest)

/-! ### Fuel monotonicity: once the traversal completes within some fuel
budget, any larger budget produces the identical result -/

theorem fuel_mono (σ : Server) (f : Nat) :
    (∀ f' st s, f ≤ f' → (goSpace σ f st s).isOut = false →
      goSpace σ f' st s = goSpace σ f st s)
    ∧ (∀ f' st s tok, f ≤ f' → (pageLoop σ f st s tok).isOut = false →
      pageLoop σ f' st s tok = pageLoop σ f st s tok)
    ∧ (∀ f' st es, f ≤ f' → (processEntries σ f st es).isOut = false →
      processEntries σ f' st es = processEntries σ f st es) := by
  induction f with
  | zero =>
    refine ⟨fun f' st s _ hout => ?_, fun f' st s tok _ hout => ?_,
      fun f' st es _ hout => ?_⟩ <;>
      simp [goSpace, pageLoop, processEntries, FetchRes.isOut] at hout
  | succ f ih =>
    obtain ⟨ihG, ihP, ihE⟩ := ih
    refine ⟨?_, ?_, ?_⟩
    · intro f' st s hle hout
      obtain ⟨f2, rfl⟩ : ∃ f2, f' = f2 + 1 := ⟨f' - 1, by omega⟩
      have hle2 : f ≤ f2 := by omega
      by_cases h : s ∈ st.visited
      · simp [goSpace, h]
      · have e1 : goSpace σ (f + 1) st s =
            pageLoop σ f
              { st with visited := s :: st.visited
                        expandLog := st.expandLog ++ [s] } s none := by
          simp [goSpace, h]
        have e2 : goSpace σ (f2 + 1) st s =
            pageLoop σ f2
              { st with visited := s :: st.visited
                        expandLog := st.expandLog ++ [s] } s none := by
          simp [goSpace, h]
        rw [e1] at hout
        rw [e1, e2, ihP f2 _ s none hle2 hout]
    · intro f' st s tok hle hout
      obtain ⟨f2, rfl⟩ : ∃ f2, f' = f2 + 1 := ⟨f' - 1, by omega⟩
      have hle2 : f ≤ f2 := by omega
      cases hσ : σ s tok with
      | none => simp [pageLoop, hσ]
      | some resp =>
        cases hEr : processEntries σ f
            { st with reqLog := st.reqLog ++ [(s, tok)] } resp.rooms with
        | ok st2 =>
          have hEout : (processEntries σ f
              { st with reqLog := st.reqLog ++ [(s, tok)] }
              resp.rooms).isOut = false := by rw [hEr]; rfl
          have hEeq := ihE f2 { st with reqLog := st.reqLog ++ [(s, tok)] }
            resp.rooms hle2 hEout
          by_cases ht : tokTruthy resp.next_batch = true
          · have e1 : pageLoop σ (f + 1) st s tok =
                pageLoop σ f st2 s resp.next_batch := by
              simp [pageLoop, hσ, hEr, ht]
            have e2 : pageLoop σ (f2 + 1) st s tok =
                pageLoop σ f2 st2 s resp.next_batch := by
              simp [pageLoop, hσ, hEeq, hEr, ht]
            rw [e1] at hout
            rw [e1, e2, ihP f2 st2 s resp.next_batch hle2 hout]
          · have e1 : pageLoop σ (f + 1) st s tok = .ok st2 := by
              simp [pageLoop, hσ, hEr, ht]
            have e2 : pageLoop σ (f2 + 1) st s tok = .ok st2 := by
              simp [pageLoop, hσ, hEeq, hEr, ht]
            rw [e1, e2]
        | err st2 =>
          have hEout : (processEntries σ f
              { st with reqLog := st.reqLog ++ [(s, tok)] }
              resp.rooms).isOut = false := by rw [hEr]; rfl
          have hEeq := ihE f2 { st with reqLog := st.reqLog ++ [(s, tok)] }
            resp.rooms hle2 hEout
          have e1 : pageLoop σ (f + 1) st s tok = .err st2 := by
            simp [pageLoop, hσ, hEr]
          have e2 : pageLoop σ (f2 + 1) st s tok = .err st2 := by
            simp [pageLoop, hσ, hEeq, hEr]
          rw [e1, e2]
        | fuelOut st2 =>
          have : pageLoop σ (f + 1) st s tok = .fuelOut st2 := by
            simp [pageLoop, hσ, hEr]
          rw [this] at hout
          simp [FetchRes.isOut] at hout
    · intro f' st es hle hout
      obtain ⟨f2, rfl⟩ : ∃ f2, f' = f2 + 1 := ⟨f' - 1, by omega⟩
      have hle2 : f ≤ f2 := by omega
      cases es with
      | nil => simp [processEntries]
      | cons e rest =>
        by_cases hsp : e.room_type = some "m.space"
        · cases hGr : goSpace σ f st e.room_id with
          | ok st1 =>
            have hGout : (goSpace σ f st e.room_id).isOut = false := by
              rw [hGr]; rfl
            have hGeq := ihG f2 st e.room_id hle2 hGout
            have e1 : processEntries σ (f + 1) st (e :: rest) =
                processEntries σ f st1 rest := by
              simp [processEntries, hsp, hGr]
            have e2 : processEntries σ (f2 + 1) st (e :: rest) =
                processEntries σ f2 st1 rest := by
              simp [processEntries, hsp, hGeq, hGr]
            rw [e1] at hout
            rw [e1, e2, ihE f2 st1 rest hle2 hout]
          | err st1 =>
            have hGout : (goSpace σ f st e.room_id).isOut = false := by
              rw [hGr]; rfl
            have hGeq := ihG f2 st e.room_id hle2 hGout
            have e1 : processEntries σ (f + 1) st (e :: rest) = .err st1 := by
              simp [processEntries, hsp, hGr]
            have e2 : processEntries σ (f2 + 1) st (e :: rest) =
                .err st1 := by
              simp [processEntries, hsp, hGeq, hGr]
            rw [e1, e2]
          | fuelOut st1 =>
            have : processEntries σ (f + 1) st (e :: rest) =
                .fuelOut st1 := by
              simp [processEntries, hsp, hGr]
            rw [this] at hout
            simp [FetchRes.isOut] at hout
        · have e1 : processEntries σ (f + 1) st (e :: rest) =
              processEntries σ f
                { st with allRooms := st.allRooms ++ [toMetadata e] }
                rest := by
            simp [processEntries, hsp]
          have e2 : processEntries σ (f2 + 1) st (e :: rest) =
              processEntries σ f2
                { st with allRooms := st.allRooms ++ [toMetadata e] }
                rest := by
            simp [processEntries, hsp]
          rw [e1] at hout
          rw [e1, e2,
            ihE f2 { st with allRooms := st.allRooms ++ [toMetadata e] }
              rest hle2 hout]

/-! ### Termination on finite space graphs

The ids a traversal can ever expand are the environment's keys together
with every space-typed child occurring in its pages; the number of such
ids not yet visited strictly decreases whenever a new space is expanded,
which bounds the recursion. -/

/-- All space ids a traversal over `serve env` can ever be asked to
expand (beyond the root): the environment's keys and every space-typed
child entry of any page. -/
def spaceIds (env : Env) : List String :=
  env.map Prod.fst ++
    env.flatMap fun p => p.2.flatten.filterMap fun e =>
      if e.room_type = some "m.space" then some e.room_id else none

/-- The number of expandable space ids not yet visited. -/
def unvisitedCount (env : Env) (st : FetchSt) : Nat :=
  ((spaceIds env).filter fun a => decide (a ∉ st.visited)).length

/-- The number of pages the environment holds for a space. -/
def pagesLen (env : Env) (s : String) : Nat :=
  ((List.lookup s env).getD []).length

theorem filter_cons_true {α : Type} {p : α → Bool} {b : α} (t : List α)
    (h : p b = true) : (b :: t).filter p = b :: t.filter p := by
  simp [List.filter_cons, h]

theorem filter_cons_false {α : Type} {p : α → Bool} {b : α} (t : List α)
    (h : p b = false) : (b :: t).filter p = t.filter p := by
  simp [List.filter_cons, h]

theorem filter_notmem_length_le (ids v1 v2 : List String)
    (h : ∀ a ∈ v1, a ∈ v2) :
    (ids.filter fun a => decide (a ∉ v2)).length ≤
      (ids.filter fun a => decide (a ∉ v1)).length := by
  induction ids with
  | nil => simp
  | cons b t ih =>
    by_cases h2 : b ∈ v2
    · rw [filter_cons_false t (by simp [h2])]
      by_cases h1 : b ∈ v1
      · rw [filter_cons_false t (by simp [h1])]
        exact ih
      · rw [filter_cons_true t (by simp [h1])]
        exact Nat.le_succ_of_le ih
    · have hb1 : b ∉ v1 := fun hx => h2 (h b hx)
      rw [filter_cons_true t (by simp [h2]),
        filter_cons_true t (by simp [hb1])]
      exact Nat.succ_le_succ ih

theorem filter_notmem_length_lt (ids v : List String) (s : String)
    (hs : s ∈ ids) (hv : s ∉ v) :
    (ids.filter fun a => decide (a ∉ s :: v)).length <
      (ids.filter fun a => decide (a ∉ v)).length := by
  induction ids with
  | nil => cases hs
  | cons b t ih =>
    rcases List.mem_cons.mp hs with heq | hbt
    · subst heq
      have hle := filter_notmem_length_le t v (s :: v)
        fun a ha => List.mem_cons_of_mem _ ha
      rw [filter_cons_false t (by simp),
        filter_cons_true t (by simp [hv])]
      rw [List.length_cons]
      exact Nat.lt_succ_of_le hle
    · by_cases hbs : b ∈ s :: v
      · by_cases hbv : b ∈ v
        · rw [filter_cons_false t (by simp [hbs]),
            filter_cons_false t (by simp [hbv])]
          exact ih hbt
        · rw [filter_cons_false t (by simp [hbs]),
            filter_cons_true t (by simp [hbv])]
          rw [List.length_cons]
          exact Nat.lt_succ_of_lt (ih hbt)
      · have hbv : b ∉ v := fun hx => hbs (List.mem_cons_of_mem _ hx)
        rw [filter_cons_true t (by simp [hbs]),
          filter_cons_true t (by simp [hbv])]
        rw [List.length_cons, List.length_cons]
        exact Nat.succ_lt_succ (ih hbt)

theorem lookup_eq_none_of_missing {env : Env} {s : String}
    (h : s ∉ env.map Prod.fst) : List.lookup s env = none := by
  induction env with
  | nil => rfl
  | cons p t ih =>
    simp only [List.map_cons, List.mem_cons] at h
    push_neg at h
    have hne : (s == p.1) = false := by simp [h.1]
    simp only [List.lookup, hne]
    exact ih h.2

theorem mem_of_lookup_eq_some {env : Env} {s : String}
    {pgs : List (List Entry)} (h : List.lookup s env = some pgs) :
    (s, pgs) ∈ env := by
  induction env with
  | nil => cases h
  | cons p t ih =>
    by_cases hbe : s = p.1
    · have hbt : (s == p.1) = true := by simp [hbe]
      simp only [List.lookup, hbt] at h
      injection h with h
      exact List.mem_cons.mpr (Or.inl (by rw [hbe, ← h]))
    · have hne : (s == p.1) = false := by simp [hbe]
      simp only [List.lookup, hne] at h
      exact List.mem_cons_of_mem _ (ih h)

/-- Shape of a successful `serve` response: the requested index is in
range, the rooms are that page, and the continuation token points at the
next page exactly when one exists. -/
theorem serve_some_shape {env : Env} {s : String} {tok : Option String}
    {resp : HierarchyResponse} (h : serve env s tok = some resp) :
    ∃ pgs, List.lookup s env = some pgs
      ∧ ∃ hi : decodeTok tok < pgs.length,
        resp.rooms = pgs.get ⟨decodeTok tok, hi⟩
        ∧ resp.next_batch =
            (if decodeTok tok + 1 < pgs.length then
              some (tokOfNat (decodeTok tok + 1)) else none) := by
  unfold serve at h
  cases hl : List.lookup s env with
  | none => rw [hl] at h; cases h
  | some pgs =>
    rw [hl] at h
    simp only at h
    by_cases hi : decodeTok tok < pgs.length
    · rw [dif_pos hi] at h
      injection h with h
      exact ⟨pgs, rfl, hi, by rw [← h], by rw [← h]⟩
    · rw [dif_neg hi] at h
      cases h

theorem serve_none_of_missing {env : Env} {s : String}
    (h : s ∉ env.map Prod.fst) (tok : Option String) :
    serve env s tok = none := by
  unfold serve
  rw [lookup_eq_none_of_missing h]

/-- Every space-typed child returned by `serve env` is one of the
environment's known space ids. -/
theorem serve_space_children {env : Env} {s : String} {tok : Option String}
    {resp : HierarchyResponse} (h : serve env s tok = some resp) :
    ∀ e ∈ resp.rooms, e.room_type = some "m.space" →
      e.room_id ∈ spaceIds env := by
  intro e he hsp
  obtain ⟨pgs, hl, hi, hrooms, _⟩ := serve_some_shape h
  rw [hrooms] at he
  refine List.mem_append.mpr (Or.inr ?_)
  refine List.mem_flatMap.mpr ⟨(s, pgs), mem_of_lookup_eq_some hl, ?_⟩
  refine List.mem_filterMap.mpr ⟨e, ?_, by simp [hsp]⟩
  exact List.mem_flatten.mpr
    ⟨pgs.get ⟨decodeTok tok, hi⟩, List.get_mem _ _ _, he⟩

theorem tokOfNat_length (n : Nat) : (tokOfNat n).length = n := by
  simp [tokOfNat, String.length]

theorem decodeTok_some_tokOfNat (m : Nat) :
    decodeTok (some (tokOfNat m)) = m := by
  simp [decodeTok, tokOfNat_length]

theorem tokTruthy_tokOfNat_succ (n : Nat) :
    tokTruthy (some (tokOfNat (n + 1))) = true := by
  have h := tokOfNat_length (n + 1)
  simp only [tokTruthy, decide_eq_true_eq]
  intro he
  rw [he] at h
  simp at h

theorem fetch_ex (env : Env) :
    ∀ n : Nat,
      (∀ st s, unvisitedCount env st ≤ n →
        ∃ f, (goSpace (serve env) f st s).isOut = false)
      ∧ (∀ st s tok, unvisitedCount env st ≤ n →
        ∃ f, (pageLoop (serve env) f st s tok).isOut = false)
      ∧ (∀ st es, unvisitedCount env st ≤ n →
        ∃ f, (processEntries (serve env) f st es).isOut = false) := by
  intro n
  induction n using Nat.strong_induction_on with
  | _ n IH =>
  have hG : ∀ st s, unvisitedCount env st ≤ n →
      ∃ f, (goSpace (serve env) f st s).isOut = false := by
    intro st s hn
    by_cases hv : s ∈ st.visited
    · exact ⟨1, by simp [goSpace, hv, FetchRes.isOut]⟩
    · by_cases hks : s ∈ spaceIds env
      · have hlt : unvisitedCount env
            { st with visited := s :: st.visited
                      expandLog := st.expandLog ++ [s] } <
            unvisitedCount env st :=
          filter_notmem_length_lt (spaceIds env) st.visited s hks hv
        have hpos : 0 < n := by omega
        obtain ⟨f, hf⟩ := (IH (n - 1) (by omega)).2.1
          { st with visited := s :: st.visited
                    expandLog := st.expandLog ++ [s] } s none (by omega)
        refine ⟨f + 1, ?_⟩
        have heq : goSpace (serve env) (f + 1) st s =
            pageLoop (serve env) f
              { st with visited := s :: st.visited
                        expandLog := st.expandLog ++ [s] } s none := by
          simp [goSpace, hv]
        rw [heq]
        exact hf
      · have hmiss : s ∉ env.map Prod.fst :=
          fun hk => hks (List.mem_append.mpr (Or.inl hk))
        refine ⟨2, ?_⟩
        have heq : goSpace (serve env) 2 st s =
            pageLoop (serve env) 1
              { st with visited := s :: st.visited
                        expandLog := st.expandLog ++ [s] } s none := by
          simp [goSpace, hv]
        rw [heq]
        simp [pageLoop, serve_none_of_missing hmiss, FetchRes.isOut]
  have hE : ∀ es st, unvisitedCount env st ≤ n →
      ∃ f, (processEntries (serve env) f st es).isOut = false := by
    intro es
    induction es with
    | nil =>
      intro st hn
      exact ⟨1, by simp [processEntries, FetchRes.isOut]⟩
    | cons e rest ih =>
      intro st hn
      by_cases hsp : e.room_type = some "m.space"
      · obtain ⟨f1, hf1⟩ := hG st e.room_id hn
        cases hGr : goSpace (serve env) f1 st e.room_id with
        | ok st1 =>
          have hev : ∀ a ∈ st.visited, a ∈ st1.visited := by
            have h := ((evolves_all (serve env) f1).1 st e.room_id).1
            rwa [hGr] at h
          have hn1 : unvisitedCount env st1 ≤ n :=
            le_trans (filter_notmem_length_le _ _ _ hev) hn
          obtain ⟨f2, hf2⟩ := ih st1 hn1
          refine ⟨max f1 f2 + 1, ?_⟩
          have hGout : (goSpace (serve env) f1 st e.room_id).isOut = false :=
            by rw [hGr]; rfl
          have hg2 : goSpace (serve env) (max f1 f2) st e.room_id =
              .ok st1 := by
            rw [(fuel_mono (serve env) f1).1 (max f1 f2) st e.room_id
              (le_max_left _ _) hGout]
            exact hGr
          have he2 : processEntries (serve env) (max f1 f2) st1 rest =
              processEntries (serve env) f2 st1 rest :=
            (fuel_mono (serve env) f2).2.2 (max f1 f2) st1 rest
              (le_max_right _ _) hf2
          have heq : processEntries (serve env) (max f1 f2 + 1) st
              (e :: rest) = processEntries (serve env) f2 st1 rest := by
            simp [processEntries, hsp, hg2, he2]
          rw [heq]
          exact hf2
        | err st1 =>
          refine ⟨f1 + 1, ?_⟩
          have heq : processEntries (serve env) (f1 + 1) st (e :: rest) =
              .err st1 := by
            simp [processEntries, hsp, hGr]
          rw [heq]
          rfl
        | fuelOut st1 =>
          rw [hGr] at hf1
          simp [FetchRes.isOut] at hf1
      · obtain ⟨f2, hf2⟩ :=
          ih { st with allRooms := st.allRooms ++ [toMetadata e] } hn
        refine ⟨f2 + 1, ?_⟩
        have heq : processEntries (serve env) (f2 + 1) st (e :: rest) =
            processEntries (serve env) f2
              { st with allRooms := st.allRooms ++ [toMetadata e] } rest :=
          by simp [processEntries, hsp]
        rw [heq]
        exact hf2
  have hPL : ∀ (k : Nat) (st : FetchSt) (s : String) (tok : Option String),
      unvisitedCount env st ≤ n → pagesLen env s - decodeTok tok ≤ k →
      ∃ f, (pageLoop (serve env) f st s tok).isOut = false := by
    intro k
    induction k with
    | zero =>
      intro st s tok hn hk
      have hserve : serve env s tok = none := by
        unfold serve
        cases hl : List.lookup s env with
        | none => rfl
        | some pgs =>
          have hout : ¬ decodeTok tok < pgs.length := by
            unfold pagesLen at hk
            rw [hl] at hk
            simp only [Option.getD] at hk
            omega
          simp [hout]
      exact ⟨1, by simp [pageLoop, hserve, FetchRes.isOut]⟩
    | succ k ihk =>
      intro st s tok hn hk
      cases hσ : serve env s tok with
      | none => exact ⟨1, by simp [pageLoop, hσ, FetchRes.isOut]⟩
      | some resp =>
        obtain ⟨f1, hf1⟩ := hE resp.rooms
          { st with reqLog := st.reqLog ++ [(s, tok)] } hn
        cases hEr : processEntries (serve env) f1
            { st with reqLog := st.reqLog ++ [(s, tok)] } resp.rooms with
        | ok st2 =>
          by_cases ht : tokTruthy resp.next_batch = true
          · obtain ⟨pgs, hl, hi, _, hnext⟩ := serve_some_shape hσ
            have hplen : pagesLen env s = pgs.length := by
              unfold pagesLen
              rw [hl]
              rfl
            have hlt : decodeTok tok + 1 < pgs.length := by
              by_contra hge
              rw [if_neg hge] at hnext
              rw [hnext] at ht
              simp [tokTruthy] at ht
            rw [if_pos hlt] at hnext
            have hrem : pagesLen env s - decodeTok resp.next_batch ≤ k := by
              rw [hnext, decodeTok_some_tokOfNat]
              omega
            have hev : ∀ a ∈ st.visited, a ∈ st2.visited := by
              have h := ((evolves_all (serve env) f1).2.2
                { st with reqLog := st.reqLog ++ [(s, tok)] } resp.rooms).1
              rw [hEr] at h
              exact fun a ha => h a ha
            have hn2 : unvisitedCount env st2 ≤ n :=
              le_trans (filter_notmem_length_le _ _ _ hev) hn
            obtain ⟨f2, hf2⟩ := ihk st2 s resp.next_batch hn2 hrem
            refine ⟨max f1 f2 + 1, ?_⟩
            have hEout : (processEntries (serve env) f1
                { st with reqLog := st.reqLog ++ [(s, tok)] }
                resp.rooms).isOut = false := by rw [hEr]; rfl
            have he1 : processEntries (serve env) (max f1 f2)
                { st with reqLog := st.reqLog ++ [(s, tok)] } resp.rooms =
                .ok st2 := by
              rw [(fuel_mono (serve env) f1).2.2 (max f1 f2) _ _
                (le_max_left _ _) hEout]
              exact hEr
            have hp2 : pageLoop (serve env) (max f1 f2) st2 s
                resp.next_batch =
                pageLoop (serve env) f2 st2 s resp.next_batch :=
              (fuel_mono (serve env) f2).2.1 (max f1 f2) st2 s
                resp.next_batch (le_max_right _ _) hf2
            have heq : pageLoop (serve env) (max f1 f2 + 1) st s tok =
                pageLoop (serve env) f2 st2 s resp.next_batch := by
              simp [pageLoop, hσ, he1, ht, hp2]
            rw [heq]
            exact hf2
          · refine ⟨f1 + 1, ?_⟩
            have heq : pageLoop (serve env) (f1 + 1) st s tok = .ok st2 :=
              by simp [pageLoop, hσ, hEr, ht]
            rw [heq]
            rfl
        | err st2 =>
          refine ⟨f1 + 1, ?_⟩
          have heq : pageLoop (serve env) (f1 + 1) st s tok = .err st2 :=
            by simp [pageLoop, hσ, hEr]
          rw [heq]
          rfl
        | fuelOut st2 =>
          rw [hEr] at hf1
          simp [FetchRes.isOut] at hf1
  exact ⟨hG,
    fun st s tok hn =>
      hPL (pagesLen env s - decodeTok tok) st s tok hn (le_refl _),
    fun st es hn => hE es st hn⟩

/-! ### Claim theorems -/

/-- C1 (code_bug evidence).  The interval callback installed by
`startMonitoring` guards a new cycle only on `this.isRunning`, which stays
`true` while a cycle is in flight; so if the timer fires twice before the
first cycle completes (cycle duration exceeding the interval), a second
`checkForNewRooms` starts concurrently and two cycles are in flight,
contradicting the claimed at-most-one-cycle-in-flight guarantee. -/
theorem timer_overlap_two_cycles_in_flight :
    schedExec schedRunning [SchedEvent.timerFire, SchedEvent.timerFire] =
      { isRunning := true, inFlightCycles := 2 }
    ∧ ¬ (schedExec schedRunning
        [SchedEvent.timerFire, SchedEvent.timerFire]).inFlightCycles ≤ 1 :=
  ⟨rfl, by decide⟩

/-- C2 (code_bug evidence).  A leaf room listed under two different
parent sub-spaces occurs twice in the fetched list; `checkForNewRooms`
filters the raw list (not the deduplicated id set) and notifies once per
element, so a single cycle sends two notifications for the same room id,
contradicting the claimed at-most-one notification per newly observed
room. -/
theorem duplicate_listing_double_notify :
    fetchRoomsInSpace (serve envDupRoom) 20 "!root" =
      [toMetadata (leafEntry "!r"), toMetadata (leafEntry "!r")]
    ∧ (runCycle (serve envDupRoom) 20 "!root" MonitorState.init
        true).notified = ["!r", "!r"]
    ∧ ((runCycle (serve envDupRoom) 20 "!root" MonitorState.init
        true).notified.count "!r") = 2 :=
  ⟨rfl, rfl, rfl⟩

/-- C3 (code_bug evidence).  `fetchRoomsInSpace` wraps the whole
recursion in a single try/catch, so an exception thrown while expanding
sub-space `!x` unwinds through the parent's entry loop and aborts the
traversal: the healthy sibling `!y` (holding `!r5`, `!r6`) is never
expanded and the call returns the rooms collected before the failure —
here the empty list, not `{!r5, !r6}` as the claim states.  No exception
reaches the caller. -/
theorem failing_branch_aborts_siblings :
    fetchRoomsInSpace (serve envBranchFail) 20 "!root" = []
    ∧ (goSpace (serve envBranchFail) 20 fetchInit "!root").toSt.expandLog =
        ["!root", "!x"]
    ∧ fetchRoomsInSpace (serve envBranchFail) 20 "!root" ≠
        [toMetadata (leafEntry "!r5"), toMetadata (leafEntry "!r6")] :=
  ⟨rfl, rfl, by decide⟩

/-! ### Pagination over a single multi-page space -/

/-- On a page of leaf-only entries the entry loop just appends all their
metadata. -/
theorem processEntries_leaves (σ : Server) :
    ∀ (es : List Entry) (f : Nat) (st : FetchSt),
      (∀ e ∈ es, ¬ e.room_type = some "m.space") → es.length < f →
      processEntries σ f st es =
        .ok { st with allRooms := st.allRooms ++ es.map toMetadata } := by
  intro es
  induction es with
  | nil =>
    intro f st _ hf
    obtain ⟨f1, rfl⟩ : ∃ f1, f = f1 + 1 := ⟨f - 1, by omega⟩
    simp [processEntries]
  | cons e rest ih =>
    intro f st h hf
    obtain ⟨f1, rfl⟩ : ∃ f1, f = f1 + 1 := ⟨f - 1, by omega⟩
    have he : ¬ e.room_type = some "m.space" := h e (List.mem_cons_self _ _)
    have heq : processEntries σ (f1 + 1) st (e :: rest) =
        processEntries σ f1
          { st with allRooms := st.allRooms ++ [toMetadata e] } rest := by
      simp [processEntries, he]
    rw [heq, ih f1 _ (fun x hx => h x (List.mem_cons_of_mem _ hx))
      (by simp at hf ⊢; omega)]
    simp

/-- The continuation token with which page `i` is requested: the first
page request carries no token, later ones the token of the previous
page's response. -/
def tokFor : Nat → Option String
  | 0 => none
  | n + 1 => some (tokOfNat (n + 1))

theorem decodeTok_tokFor (n : Nat) : decodeTok (tokFor n) = n := by
  cases n with
  | zero => rfl
  | succ m => exact decodeTok_some_tokOfNat (m + 1)

/-- The successive page requests for pages `i, i+1, ..., i+k-1` with the
tokens they carry. -/
def reqTokens (s : String) : Nat → Nat → List (String × Option String)
  | _, 0 => []
  | i, k + 1 => (s, tokFor i) :: reqTokens s (i + 1) k

theorem serve_single (s : String) (pgs : List (List Entry))
    (tok : Option String) :
    serve [(s, pgs)] s tok =
      if h : decodeTok tok < pgs.length then
        some { rooms := pgs.get ⟨decodeTok tok, h⟩
               next_batch := if decodeTok tok + 1 < pgs.length then
                 some (tokOfNat (decodeTok tok + 1)) else none }
      else none := by
  have hl : List.lookup s [(s, pgs)] = some pgs := by simp [List.lookup]
  simp [serve, hl]

/-- Walking a single leaf-only multi-page space from page `i`: every
remaining page is requested once, in order, each request carrying the
token for its page, and all leaf rooms of the remaining pages are
appended in order. -/
theorem pageLoop_pages (s : String) (pgs : List (List Entry))
    (hleaf : ∀ pg ∈ pgs, ∀ e ∈ pg, ¬ e.room_type = some "m.space") :
    ∀ (k i f : Nat) (st : FetchSt), pgs.length - i = k → i < pgs.length →
      ((pgs.drop i).map fun pg => pg.length + 2).sum ≤ f →
      pageLoop (serve [(s, pgs)]) f st s (tokFor i) =
        .ok { st with
          allRooms := st.allRooms ++ ((pgs.drop i).flatten.map toMetadata)
          reqLog := st.reqLog ++ reqTokens s i k } := by
  intro k
  induction k with
  | zero => intro i f st hk hi _; omega
  | succ k ihk =>
    intro i f st hk hi hf
    have hget : pgs.drop i = pgs[i] :: pgs.drop (i + 1) :=
      List.drop_eq_getElem_cons hi
    have hsum : pgs[i].length + 2 +
        ((pgs.drop (i + 1)).map fun pg => pg.length + 2).sum ≤ f := by
      rw [hget] at hf
      simp only [List.map_cons, List.sum_cons] at hf
      omega
    obtain ⟨f1, rfl⟩ : ∃ f1, f = f1 + 1 := ⟨f - 1, by omega⟩
    have hserve := serve_single s pgs (tokFor i)
    rw [decodeTok_tokFor, dif_pos hi] at hserve
    simp only [List.get_eq_getElem] at hserve
    have hmem : pgs[i] ∈ pgs := by
      exact List.getElem_mem hi
    have hPE := processEntries_leaves (serve [(s, pgs)]) (pgs[i])
      f1 { st with reqLog := st.reqLog ++ [(s, tokFor i)] }
      (hleaf _ hmem) (by omega)
    by_cases hnb : i + 1 < pgs.length
    · have heq : pageLoop (serve [(s, pgs)]) (f1 + 1) st s (tokFor i) =
          pageLoop (serve [(s, pgs)]) f1
            { st with
              allRooms := st.allRooms ++ pgs[i].map toMetadata
              reqLog := st.reqLog ++ [(s, tokFor i)] }
            s (some (tokOfNat (i + 1))) := by
        simp [pageLoop, hserve, hPE, hnb, tokTruthy_tokOfNat_succ]
      rw [heq]
      have htok : (some (tokOfNat (i + 1))) = tokFor (i + 1) := rfl
      rw [htok,
        ihk (i + 1) f1 _ (by omega) hnb (by omega)]
      rw [hget]
      simp [reqTokens]
      rw [List.drop_eq_getElem_cons
        (show i < (pgs.map (List.map toMetadata)).length by simpa using hi)]
      simp
    · have hd : pgs.drop (i + 1) = [] := by
        apply List.drop_eq_nil_of_le
        omega
      have heq : pageLoop (serve [(s, pgs)]) (f1 + 1) st s (tokFor i) =
          .ok { st with
            allRooms := st.allRooms ++ pgs[i].map toMetadata
            reqLog := st.reqLog ++ [(s, tokFor i)] } := by
        simp [pageLoop, hserve, hPE, hnb, tokTruthy]
      rw [heq]
      have hk0 : k = 0 := by omega
      subst hk0
      rw [hget, hd]
      simp [reqTokens]

/-- C5.  For a space whose child listing spans several token-linked
pages, the traversal requests the pages successively — the first request
carries no token, each later request carries the continuation token
returned by the previous page — stops when no further token is returned,
and the result is the concatenation of the leaf rooms of all pages.
Stated for any number of leaf-only pages, with the concrete three-page
instance evaluated explicitly. -/
theorem pagination_collects_all_pages :
    (∀ pgs : List (List Entry),
      (∀ pg ∈ pgs, ∀ e ∈ pg, ¬ e.room_type = some "m.space") →
      0 < pgs.length →
      fetchRoomsInSpace (serve [("!s", pgs)])
          ((pgs.map fun pg => pg.length + 2).sum + 1) "!s" =
        pgs.flatten.map toMetadata
      ∧ (goSpace (serve [("!s", pgs)])
          ((pgs.map fun pg => pg.length + 2).sum + 1) fetchInit
          "!s").toSt.reqLog = reqTokens "!s" 0 pgs.length
      ∧ (goSpace (serve [("!s", pgs)])
          ((pgs.map fun pg => pg.length + 2).sum + 1) fetchInit
          "!s").isOut = false)
    ∧ fetchRoomsInSpace
        (serve [("!s", [[leafEntry "!p1"], [leafEntry "!p2"],
          [leafEntry "!p3"]])]) 11 "!s" =
        [toMetadata (leafEntry "!p1"), toMetadata (leafEntry "!p2"),
          toMetadata (leafEntry "!p3")]
    ∧ (goSpace (serve [("!s", [[leafEntry "!p1"], [leafEntry "!p2"],
          [leafEntry "!p3"]])]) 11 fetchInit "!s").toSt.reqLog =
        [("!s", none), ("!s", some (tokOfNat 1)),
          ("!s", some (tokOfNat 2))] := by
  refine ⟨?_, rfl, rfl⟩
  intro pgs hleaf hpos
  have hgo : goSpace (serve [("!s", pgs)])
      ((pgs.map fun pg => pg.length + 2).sum + 1) fetchInit "!s" =
      .ok { visited := ["!s"]
            allRooms := [] ++ (pgs.flatten.map toMetadata)
            expandLog := ["!s"]
            reqLog := [] ++ reqTokens "!s" 0 pgs.length } := by
    have h0 : goSpace (serve [("!s", pgs)])
        ((pgs.map fun pg => pg.length + 2).sum + 1) fetchInit "!s" =
        pageLoop (serve [("!s", pgs)])
          ((pgs.map fun pg => pg.length + 2).sum)
          { visited := ["!s"], allRooms := [], expandLog := ["!s"],
            reqLog := [] } "!s" none := by
      simp [goSpace, fetchInit]
    rw [h0]
    exact pageLoop_pages "!s" pgs hleaf pgs.length 0
      ((pgs.map fun pg => pg.length + 2).sum)
      { visited := ["!s"], allRooms := [], expandLog := ["!s"],
        reqLog := [] } (by omega) hpos (by simp)
  refine ⟨?_, ?_, ?_⟩
  · unfold fetchRoomsInSpace
    rw [hgo]
    simp [FetchRes.toSt]
  · rw [hgo]
    simp [FetchRes.toSt]
  · rw [hgo]
    rfl

/-- Witness for C5 at the concrete three-page space: the general part of
the theorem applied to three singleton leaf pages. -/
theorem pagination_collects_all_pages_witness :
    fetchRoomsInSpace
        (serve [("!s", [[leafEntry "!p1"], [leafEntry "!p2"],
          [leafEntry "!p3"]])]) 10 "!s" =
      [[leafEntry "!p1"], [leafEntry "!p2"],
        [leafEntry "!p3"]].flatten.map toMetadata :=
  (pagination_collects_all_pages.1
    [[leafEntry "!p1"], [leafEntry "!p2"], [leafEntry "!p3"]]
    (by decide) (by decide)).1

/-- C4.  On every finite space graph — reference cycles included — the
traversal terminates: some fuel budget completes it without exhaustion
and every larger budget yields the identical result (so fuel is a
recursion-depth bound, not part of the behaviour); and on any server
whatsoever the expansion log never contains a space twice — the
visited-set makes every expanded space's child listing be requested
exactly once.  On the concrete two-space cycle, both spaces are expanded
exactly once and the single leaf room is collected. -/
theorem fetch_terminates_each_space_once :
    (∀ (σ : Server) (fuel : Nat) (root : String),
      (goSpace σ fuel fetchInit root).toSt.expandLog.Nodup)
    ∧ (∀ (env : Env) (root : String), ∃ f,
        (goSpace (serve env) f fetchInit root).isOut = false
        ∧ ∀ f', f ≤ f' →
            goSpace (serve env) f' fetchInit root =
              goSpace (serve env) f fetchInit root)
    ∧ (goSpace (serve envCycle) 20 fetchInit "!a").toSt.expandLog =
        ["!a", "!b"]
    ∧ fetchRoomsInSpace (serve envCycle) 20 "!a" =
        [toMetadata (leafEntry "!r1")]
    ∧ (goSpace (serve envCycle) 20 fetchInit "!a").isOut = false := by
  refine ⟨?_, ?_, rfl, rfl, rfl⟩
  · intro σ fuel root
    have h := ((evolves_all σ fuel).1 fetchInit root).2
      ⟨List.nodup_nil, by intro a ha; cases ha⟩
    exact h.1
  · intro env root
    obtain ⟨f, hf⟩ := (fetch_ex env (unvisitedCount env fetchInit)).1
      fetchInit root (le_refl _)
    exact ⟨f, hf,
      fun f' hle => (fuel_mono (serve env) f).1 f' fetchInit root hle hf⟩

/-- Witness for C4 at the concrete reference cycle: the expansion log of
the traversal over the `!a`/`!b` cycle is duplicate-free. -/
theorem fetch_terminates_each_space_once_witness :
    (goSpace (serve envCycle) 20 fetchInit "!a").toSt.expandLog.Nodup :=
  fetch_terminates_each_space_once.1 (serve envCycle) 20 "!a"

/-- C6.  The diff step of `checkForNewRooms` is a pure function of the
fetched rooms and the previous known-id set: `currentRoomIds` holds
exactly the `room_id` values of the fetched rooms, and `newRooms` is the
subsequence (order-preserving sublist) of the fetched rooms consisting
exactly of those whose id is absent from the previous set. -/
theorem diff_step_pure_and_correct (rooms : List Metadata)
    (last : List String) :
    (∀ x, x ∈ currentRoomIdsOf rooms ↔ x ∈ rooms.map fun r => r.room_id)
    ∧ List.Sublist (newRoomsOf rooms last) rooms
    ∧ (∀ r, r ∈ newRoomsOf rooms last ↔ r ∈ rooms ∧ r.room_id ∉ last) := by
  refine ⟨fun x => mem_jsSetOfList, List.filter_sublist rooms, fun r => ?_⟩
  simp [newRoomsOf, List.mem_filter]

/-- C7.  On first start with no prior snapshot, `loadState` reports no
existing state, so the first cycle runs with `shouldAlert = false`: it
sends zero notifications and persists exactly the currently fetched
room-id set; concretely, for current rooms `!r1, !r2, !r3` it persists
precisely those ids. -/
theorem baseline_first_cycle (σ : Server) (fuel : Nat) (sp : String) :
    (startFirstCycle σ fuel sp StoredState.missing).notified = []
    ∧ (∀ x, x ∈ (startFirstCycle σ fuel sp StoredState.missing).saved.rooms
        ↔ x ∈ (fetchRoomsInSpace σ fuel sp).map fun r => r.room_id)
    ∧ (startFirstCycle (serve envBaseline) 20 "!space"
        StoredState.missing).saved.rooms = ["!r1", "!r2", "!r3"] := by
  refine ⟨runCycle_noAlert σ fuel sp MonitorState.init,
    fun x => mem_jsSetOfList, rfl⟩

/-- C8.  Two consecutive cycles against an unchanged remote hierarchy:
the second cycle finds no new rooms, sends no notifications, and both the
in-memory and the persisted known-room set are unchanged from the first
cycle. -/
theorem second_cycle_idempotent (σ : Server) (fuel : Nat) (sp : String)
    (st : MonitorState) (b : Bool) :
    (runCycle σ fuel sp (runCycle σ fuel sp st b).state true).newCount = 0
    ∧ (runCycle σ fuel sp (runCycle σ fuel sp st b).state true).notified = []
    ∧ (runCycle σ fuel sp (runCycle σ fuel sp st b).state
        true).state.lastCheckedRooms =
        (runCycle σ fuel sp st b).state.lastCheckedRooms
    ∧ (runCycle σ fuel sp (runCycle σ fuel sp st b).state true).saved.rooms =
        (runCycle σ fuel sp st b).saved.rooms := by
  have hnil := newRoomsOf_self_nil σ fuel sp
  refine ⟨?_, ?_, rfl, rfl⟩
  · rw [runCycle_newCount, runCycle_state_last, hnil]
    rfl
  · rw [runCycle_notified, runCycle_state_last, hnil]
    simp

/-- C9.  `loadState` returns `false` (absent) rather than raising both
when the state file is missing and when its contents fail to parse; the
in-memory state is left untouched — in particular still the empty
known-room set at startup — and startup then proceeds with baseline
semantics (a corrupt snapshot yields a first cycle that notifies
nothing). -/
theorem load_state_bad_is_absent (st : MonitorState) :
    loadState StoredState.missing st = (st, false)
    ∧ loadState StoredState.corrupt st = (st, false)
    ∧ (loadState StoredState.missing MonitorState.init).1.lastCheckedRooms
        = []
    ∧ (loadState StoredState.corrupt MonitorState.init).1.lastCheckedRooms
        = []
    ∧ (∀ (σ : Server) (fuel : Nat) (sp : String),
        (startFirstCycle σ fuel sp StoredState.corrupt).notified = []) :=
  ⟨rfl, rfl, rfl, rfl,
    fun σ fuel sp => runCycle_noAlert σ fuel sp MonitorState.init⟩

/-- C10.  Whenever a cycle's traversal returns the empty room list (for
example because the root space is unreachable and the very first request
fails), `checkForNewRooms` replaces the known-room set with the empty set
and persists it, regardless of the alert flag; a following successful
cycle therefore treats every fetched room as new and notifies all of
them, including rooms that were known before. -/
theorem empty_fetch_wipes_known_set (σ : Server) (fuel : Nat) (sp : String)
    (st : MonitorState) (b : Bool)
    (h : fetchRoomsInSpace σ fuel sp = []) :
    (runCycle σ fuel sp st b).state.lastCheckedRooms = []
    ∧ (runCycle σ fuel sp st b).saved.rooms = []
    ∧ ∀ (σ' : Server) (fuel' : Nat) (sp' : String),
        (runCycle σ' fuel' sp' (runCycle σ fuel sp st b).state
          true).notified =
          (fetchRoomsInSpace σ' fuel' sp').map fun r => r.room_id := by
  have h1 : (runCycle σ fuel sp st b).state.lastCheckedRooms = [] := by
    rw [runCycle_state_last, h]; rfl
  refine ⟨h1, ?_, ?_⟩
  · rw [runCycle_saved_rooms, h]; rfl
  · intro σ' fuel' sp'
    have hall : newRoomsOf (fetchRoomsInSpace σ' fuel' sp')
        (runCycle σ fuel sp st b).state.lastCheckedRooms =
        fetchRoomsInSpace σ' fuel' sp' := by
      rw [h1]
      unfold newRoomsOf
      rw [List.filter_eq_self]
      intro r _
      simp
    rw [runCycle_notified, hall]
    cases hr : fetchRoomsInSpace σ' fuel' sp' with
    | nil => simp
    | cons a t => simp

/-- Witness for C10 at a concrete input: the empty environment makes the
very first hierarchy request fail, the fetched list is empty, and a cycle
over it wipes a previously known room from the known-room set. -/
theorem empty_fetch_wipes_known_set_witness :
    fetchRoomsInSpace (serve envNone) 20 "!root" = []
    ∧ (runCycle (serve envNone) 20 "!root"
        { lastCheckedRooms := ["!old"], roomNames := [] }
        true).state.lastCheckedRooms = []
    ∧ (runCycle (serve envNone) 20 "!root"
        { lastCheckedRooms := ["!old"], roomNames := [] }
        true).saved.rooms = [] :=
  ⟨rfl,
    (empty_fetch_wipes_known_set (serve envNone) 20 "!root"
      { lastCheckedRooms := ["!old"], roomNames := [] } true rfl).1,
    (empty_fetch_wipes_known_set (serve envNone) 20 "!root"
      { lastCheckedRooms := ["!old"], roomNames := [] } true rfl).2.1⟩

end MatrixRoomsBot
